import Mathlib

/-!
Verification of the photomosaic engine (`photomosaic.py`).

The development shallowly embeds the algorithmic core of the program:

* `make_balanced_assignments` (balanced random tile assignment),
* `color_match_pixels` with its helpers `_to_np_rgb`, `_clip_back`,
  `_rgb_to_yuv`, `_yuv_to_rgb` (statistical color transfer), and
* `build_mosaic_random` (the mosaic compositor).

Machine `uint8` pixels become `Fin 3 → ℤ` triples; the `numpy.float32`
arithmetic of the source is embedded as exact real arithmetic, with the
final `np.clip(..., 0, 255).astype(np.uint8)` step modelled as clamping
followed by floor (truncation toward zero, which on the clamped
nonnegative range is exactly `Int.floor`).  Python's Mersenne-Twister
output stream, which `random.shuffle` consumes after being seeded, is
modelled as an explicit function `rng : ℕ → ℕ` giving the value drawn at
each shuffle step; the shuffle itself is the Fisher-Yates loop that
`random.shuffle` performs.  Python exceptions are modelled with `Except`.
-/

namespace Photomosaic

/-! ## Definitions: balanced random assignment -/

/-- Errors a `build` run can surface.  The code raises `ZeroDivisionError`
(from `total_cells / num_tiles` with `num_tiles = 0`); `emptyTileSet` is
the error kind the specification document names, included so that claims
about it can be stated. -/
inductive PyError where
  | zeroDivisionError
  | emptyTileSet
  deriving DecidableEq

/-- One simultaneous swap `x[i], x[j] = x[j], x[i]` on a list, both reads
happening before both writes, exactly as in Python. -/
def swapAt (l : List ℕ) (i j : ℕ) : List ℕ :=
  (l.set i (l.getD j 0)).set j (l.getD i 0)

/-- Python's `random.shuffle`: a Fisher-Yates loop
`for i in reversed(range(1, len(x))): j = randbelow(i+1); swap`.
The random source is the stream `rng`; step `k` of the loop works at
position `i = len - 1 - k` and draws `rng k % (i + 1)`, which is how an
arbitrary stream is reduced to the in-range draw `randbelow(i+1)`
produces (for the actual generator the draw is already in range, so the
reduction is the identity on its values). -/
def py_shuffle (rng : ℕ → ℕ) (l : List ℕ) : List ℕ :=
  (List.range (l.length - 1)).foldl
    (fun acc k =>
      let i := l.length - 1 - k
      swapAt acc i (rng k % (i + 1))) l

/-- Python's `lst * repeats`: `repeats` concatenated copies of `lst`. -/
def listRepeat (l : List ℕ) : ℕ → List ℕ
  | 0 => []
  | n + 1 => l ++ listRepeat l n

/-- `make_balanced_assignments(num_tiles, total_cells, rng)`: repeat
`[0..num_tiles-1]` enough times to cover `total_cells`, shuffle once, and
trim.  With `num_tiles = 0` the source raises `ZeroDivisionError` while
evaluating `math.ceil(total_cells / num_tiles)`. -/
def make_balanced_assignments (num_tiles total_cells : ℕ) (rng : ℕ → ℕ) :
    Except PyError (List ℕ) :=
  if num_tiles = 0 then Except.error PyError.zeroDivisionError
  else
    let repeats := (total_cells + num_tiles - 1) / num_tiles
    let base := listRepeat (List.range num_tiles) repeats
    Except.ok ((py_shuffle rng base).take total_cells)

/-! ## Definitions: color matching (`color_match_pixels` and helpers) -/

/-- RGB pixel as stored in a pixel buffer: one integer per channel. -/
abbrev Px := Fin 3 → ℤ

/-- RGB pixel during the floating-point processing stages. -/
abbrev PxR := Fin 3 → ℝ

/-- `EPS = 1e-6`, the numeric-stability constant of the source. -/
noncomputable def EPS : ℝ := 1 / 1000000

/-- `_to_np_rgb`: a pixel list as a float array (exact reals here). -/
noncomputable def to_np_rgb (pixels : List Px) : List PxR :=
  pixels.map (fun p c => (p c : ℝ))

/-- One channel column of a float pixel array (`arr[:, c]`). -/
noncomputable def chanR (l : List PxR) (c : Fin 3) : List ℝ :=
  l.map (fun p => p c)

/-- `np.ndarray.mean` of a 1-d array. -/
noncomputable def npMean (l : List ℝ) : ℝ := l.sum / l.length

/-- `np.ndarray.var` of a 1-d array (`ddof = 0`). -/
noncomputable def npVar (l : List ℝ) : ℝ :=
  npMean (l.map (fun x => (x - npMean l) ^ 2))

/-- `np.ndarray.std` of a 1-d array: square root of `npVar`. -/
noncomputable def npStd (l : List ℝ) : ℝ := Real.sqrt (npVar l)

/-- `_clip_back` on a single channel value:
`np.clip(v, 0, 255).astype(np.uint8)`; the cast truncates toward zero,
which after the clamp is `Int.floor`. -/
noncomputable def clipChan (x : ℝ) : ℤ := ⌊max 0 (min 255 x)⌋

/-- `_clip_back`: clamp to `[0, 255]`, truncate to integers. -/
noncomputable def clip_back (arr : List PxR) : List Px :=
  arr.map (fun p c => clipChan (p c))

/-- `_rgb_to_yuv`: multiplication by the YUV matrix of the source. -/
noncomputable def rgb_to_yuv (p : PxR) : PxR
  | 0 => 0.299 * p 0 + 0.587 * p 1 + 0.114 * p 2
  | 1 => -0.147 * p 0 + -0.289 * p 1 + 0.436 * p 2
  | 2 => 0.615 * p 0 + -0.515 * p 1 + -0.100 * p 2

/-- `_yuv_to_rgb`: multiplication by the inverse-ish matrix of the
source (the two matrices are not exact inverses of each other). -/
noncomputable def yuv_to_rgb (p : PxR) : PxR
  | 0 => 1.0 * p 0 + 0.0 * p 1 + 1.13983 * p 2
  | 1 => 1.0 * p 0 + -0.39465 * p 1 + -0.58060 * p 2
  | 2 => 1.0 * p 0 + 2.03211 * p 1 + 0.0 * p 2

/-- The luma gain of the `"luma"` mode:
`(sd_g / (sd_t + EPS)) if sd_t > EPS else 1.0`. -/
noncomputable def lumaGain (t g : List PxR) : ℝ :=
  let sd_t := npStd (chanR (t.map rgb_to_yuv) 0)
  let sd_g := npStd (chanR (g.map rgb_to_yuv) 0)
  if sd_t > EPS then sd_g / (sd_t + EPS) else 1

/-- The luma bias of the `"luma"` mode: `mu_g - mu_t * gain`. -/
noncomputable def lumaBias (t g : List PxR) : ℝ :=
  npMean (chanR (g.map rgb_to_yuv) 0)
    - npMean (chanR (t.map rgb_to_yuv) 0) * lumaGain t g

/-- The YUV array of the `"luma"` mode after `yuv_t[:, 0] = y_t * gain + bias`
(chroma columns are the untouched columns of `_rgb_to_yuv(t)`). -/
noncomputable def lumaStage (t g : List PxR) : List PxR :=
  (t.map rgb_to_yuv).map
    (fun p c => if c = 0 then p 0 * lumaGain t g + lumaBias t g else p c)

/-- `color_match_pixels(tile_pixels, target_pixels, mode)`.  Mode dispatch
follows the source: `"luma"` first, then `"mean"`, and any other string
falls through to the `"meanstd"` transform. -/
noncomputable def color_match_pixels
    (tile_pixels target_pixels : List Px) (mode : String) : List Px :=
  let t := to_np_rgb tile_pixels
  let g := to_np_rgb target_pixels
  if mode = "luma" then
    clip_back ((lumaStage t g).map yuv_to_rgb)
  else
    let mu_t : Fin 3 → ℝ := fun c => npMean (chanR t c)
    let mu_g : Fin 3 → ℝ := fun c => npMean (chanR g c)
    if mode = "mean" then
      clip_back (t.map (fun p c => p c + (mu_g c - mu_t c)))
    else
      let sd_t : Fin 3 → ℝ := fun c => npStd (chanR t c)
      let sd_g : Fin 3 → ℝ := fun c => npStd (chanR g c)
      clip_back (t.map
        (fun p c => (p c - mu_t c) * (sd_g c / (sd_t c + EPS)) + mu_g c))

/-- The float-valued transform of `color_match_pixels` before the final
`_clip_back`: same three branches, no clamping and no truncation
anywhere.  Used to state that clamp-then-round happens exactly once, as
the last stage. -/
noncomputable def color_match_unclipped
    (tile_pixels target_pixels : List Px) (mode : String) : List PxR :=
  let t := to_np_rgb tile_pixels
  let g := to_np_rgb target_pixels
  if mode = "luma" then
    (lumaStage t g).map yuv_to_rgb
  else
    let mu_t : Fin 3 → ℝ := fun c => npMean (chanR t c)
    let mu_g : Fin 3 → ℝ := fun c => npMean (chanR g c)
    if mode = "mean" then
      t.map (fun p c => p c + (mu_g c - mu_t c))
    else
      let sd_t : Fin 3 → ℝ := fun c => npStd (chanR t c)
      let sd_g : Fin 3 → ℝ := fun c => npStd (chanR g c)
      t.map (fun p c => (p c - mu_t c) * (sd_g c / (sd_t c + EPS)) + mu_g c)

/-- The `"luma"` transfer as Section 4.1 of the specification words it:
`gain = target_luma_std / (source_luma_std + EPS)` with no special case
for a tiny source deviation.  This definition follows the specification's
words, to be compared against the code's `color_match_pixels`. -/
noncomputable def color_match_luma_spec (tile_pixels target_pixels : List Px) :
    List Px :=
  let t := to_np_rgb tile_pixels
  let g := to_np_rgb target_pixels
  let gain := npStd (chanR (g.map rgb_to_yuv) 0)
    / (npStd (chanR (t.map rgb_to_yuv) 0) + EPS)
  let bias := npMean (chanR (g.map rgb_to_yuv) 0)
    - npMean (chanR (t.map rgb_to_yuv) 0) * gain
  clip_back (((t.map rgb_to_yuv).map
    (fun p c => if c = 0 then p 0 * gain + bias else p c)).map yuv_to_rgb)

/-! ## Definitions: mosaic compositor -/

/-- Pixels of `image.crop((tx, ty, tx+ts, ty+ts)).getdata()` for a
row-major buffer of width `W`. -/
def cropBox (buf : List Px) (W tx ty ts : ℕ) : List Px :=
  (List.range ts).foldr
    (fun dy acc => ((buf.drop ((ty + dy) * W + tx)).take ts) ++ acc) []

/-- `build_mosaic_random`: compute the grid, draw one balanced assignment,
then recolor the assigned tile against each cell's target patch, in
row-major cell order.  The result is the list of recolored cell buffers
in that order (the paste step writes cell `idx` to the disjoint pixel box
of cell `idx`, so the canvas content is exactly this family).  A Python
exception raised while generating the assignment aborts the build before
any cell is processed, modelled by `Except` propagation. -/
noncomputable def build_mosaic_random (target_big : List Px) (W H : ℕ)
    (tiles : List (List Px)) (mode : String) (rng : ℕ → ℕ) (tile_size : ℕ) :
    Except PyError (List (List Px)) :=
  let x_count := W / tile_size
  let y_count := H / tile_size
  let total_cells := x_count * y_count
  match make_balanced_assignments tiles.length total_cells rng with
  | Except.error e => Except.error e
  | Except.ok assignments =>
      Except.ok ((List.range total_cells).map (fun idx =>
        let xi := idx % x_count
        let yi := idx / x_count
        let target_patch :=
          cropBox target_big W (xi * tile_size) (yi * tile_size) tile_size
        color_match_pixels (tiles.getD (assignments.getD idx 0) [])
          target_patch mode))

/-! ## Definitions: concrete inputs used in witnesses and counterexamples -/

/-- A gray pixel: the same integer on all three channels. -/
def gray (n : ℤ) : Px := fun _ => n

/-- A random stream that makes the length-6 Fisher-Yates shuffle finish
with both copies of tile index 0 in the trimmed tail. -/
def cRng : ℕ → ℕ := fun k => [0, 3, 3, 2, 1].getD k 0

/-- The red-ish pixel `(1, 0, 0)`. -/
def redOne : Px
  | 0 => 1
  | 1 => 0
  | 2 => 0

/-- A huge nearly-black tile: `10^12` black pixels and one `(1,0,0)`
pixel, whose luma standard deviation is positive yet below `EPS`. -/
def hugeTile : List Px := List.replicate (10 ^ 12) (gray 0) ++ [redOne]

/-- A constant mid-gray target of the same length as `hugeTile`. -/
def hugeTarget : List Px := List.replicate (10 ^ 12 + 1) (gray 100)

/-- A huge nearly-black buffer with one white outlier in front:
`(255,255,255)` followed by `9 * 10^12` black pixels.  Its per-channel
standard deviation is about `8.5e-5`, so the `"meanstd"` self-transfer
gain `sd / (sd + EPS)` is about `0.988` and the outlier moves by about
three gray levels. -/
def hugeTile2 : List Px := gray 255 :: List.replicate (9 * 10 ^ 12) (gray 0)

/-! ## Lemmas: the shuffle permutes and the base list is balanced -/

theorem count_set_add (l : List ℕ) (i b a : ℕ) (h : i < l.length) :
    (l.set i b).count a + (if l.getD i 0 = a then 1 else 0)
      = l.count a + (if b = a then 1 else 0) := by
  induction l generalizing i with
  | nil => simp at h
  | cons x xs ih =>
    cases i with
    | zero =>
      simp only [List.set_cons_zero, List.getD_cons_zero, List.count_cons,
        beq_iff_eq]
      by_cases hb : b = a <;> by_cases hx : x = a <;>
        simp only [hb, hx, if_true, if_false, ite_true, ite_false]
    | succ n =>
      have hn : n < xs.length := by simpa using h
      have hrec := ih n hn
      simp only [List.set_cons_succ, List.getD_cons_succ, List.count_cons,
        beq_iff_eq] at hrec ⊢
      by_cases hx : x = a <;>
        simp only [hx, ite_true, ite_false, if_true, if_false] <;> omega

theorem getD_set_same (l : List ℕ) (j b : ℕ) (hj : j < l.length) :
    (l.set j b).getD j 0 = b := by
  simp [hj]

theorem getD_set_other (l : List ℕ) (i j b : ℕ) (hij : i ≠ j) :
    (l.set i b).getD j 0 = l.getD j 0 := by
  simp [List.getElem?_set_ne hij]

theorem count_swapAt (l : List ℕ) (i j : ℕ) (hi : i < l.length)
    (hj : j < l.length) (a : ℕ) : (swapAt l i j).count a = l.count a := by
  unfold swapAt
  have hj2 : j < (l.set i (l.getD j 0)).length := by simpa using hj
  have h1 := count_set_add l i (l.getD j 0) a hi
  have h2 := count_set_add (l.set i (l.getD j 0)) j (l.getD i 0) a hj2
  by_cases hij : i = j
  · subst hij
    rw [getD_set_same l i (l.getD i 0) hi] at h2
    omega
  · rw [getD_set_other l i j (l.getD j 0) hij] at h2
    split_ifs at h1 h2 <;> omega

theorem swapAt_perm (l : List ℕ) (i j : ℕ) (hi : i < l.length)
    (hj : j < l.length) : (swapAt l i j).Perm l :=
  List.perm_iff_count.mpr (fun a => count_swapAt l i j hi hj a)

theorem py_shuffle_perm (rng : ℕ → ℕ) (l : List ℕ) :
    (py_shuffle rng l).Perm l := by
  unfold py_shuffle
  suffices h : ∀ (ks : List ℕ) (acc : List ℕ), acc.length = l.length →
      (∀ k ∈ ks, k < l.length - 1) →
      (ks.foldl (fun acc k =>
        swapAt acc (l.length - 1 - k) (rng k % (l.length - 1 - k + 1))) acc).Perm acc by
    exact h (List.range (l.length - 1)) l rfl (fun k hk => List.mem_range.mp hk)
  intro ks
  induction ks with
  | nil => intro acc _ _; simp
  | cons k ks ih =>
    intro acc hlen hmem
    have hk : k < l.length - 1 := hmem k (by simp)
    have hi : l.length - 1 - k < acc.length := by omega
    have hj : rng k % (l.length - 1 - k + 1) < acc.length := by
      have hm : rng k % (l.length - 1 - k + 1) < l.length - 1 - k + 1 :=
        Nat.mod_lt _ (Nat.succ_pos _)
      omega
    have hswap : (swapAt acc (l.length - 1 - k)
        (rng k % (l.length - 1 - k + 1))).Perm acc := swapAt_perm _ _ _ hi hj
    have hrec := ih (swapAt acc (l.length - 1 - k)
        (rng k % (l.length - 1 - k + 1)))
      (hswap.length_eq.trans hlen) (fun x hx => hmem x (by simp [hx]))
    exact List.Perm.trans (by simpa using hrec) hswap

theorem count_listRepeat (l : List ℕ) (n a : ℕ) :
    (listRepeat l n).count a = n * l.count a := by
  induction n with
  | zero => simp [listRepeat]
  | succ m ih => simp [listRepeat, List.count_append, ih]; ring

theorem length_listRepeat (l : List ℕ) (n : ℕ) :
    (listRepeat l n).length = n * l.length := by
  induction n with
  | zero => simp [listRepeat]
  | succ m ih => simp [listRepeat, ih]; ring

theorem mem_listRepeat {l : List ℕ} {n x : ℕ} (h : x ∈ listRepeat l n) :
    x ∈ l := by
  induction n with
  | zero => simp [listRepeat] at h
  | succ m ih =>
    simp only [listRepeat, List.mem_append] at h
    exact h.elim id ih

theorem make_balanced_ok (N M : ℕ) (rng : ℕ → ℕ) (hN : 0 < N) :
    make_balanced_assignments N M rng =
      Except.ok ((py_shuffle rng
        (listRepeat (List.range N) ((M + N - 1) / N))).take M) := by
  unfold make_balanced_assignments
  rw [if_neg (Nat.pos_iff_ne_zero.mp hN)]

theorem base_length (N M : ℕ) (hN : 0 < N) :
    M ≤ (listRepeat (List.range N) ((M + N - 1) / N)).length := by
  rw [length_listRepeat, List.length_range, Nat.mul_comm]
  have hdm := Nat.div_add_mod (M + N - 1) N
  have hlt : (M + N - 1) % N < N := Nat.mod_lt _ hN
  omega

theorem count_range_lt {N i : ℕ} (h : i < N) : (List.range N).count i = 1 :=
  List.count_eq_one_of_mem (List.nodup_range N) (List.mem_range.mpr h)

/-! ## Lemmas: list statistics -/

theorem npMean_nil : npMean [] = 0 := by
  simp [npMean]

theorem sum_map_affine (l : List ℝ) (a b : ℝ) :
    (l.map (fun x => a * x + b)).sum = a * l.sum + l.length * b := by
  induction l with
  | nil => simp
  | cons x xs ih =>
    simp only [List.map_cons, List.sum_cons, List.length_cons, ih]
    push_cast
    ring

theorem npMean_map_affine (l : List ℝ) (a b : ℝ) (hne : l ≠ []) :
    npMean (l.map (fun x => a * x + b)) = a * npMean l + b := by
  have hlen : (l.length : ℝ) ≠ 0 :=
    Nat.cast_ne_zero.mpr (List.length_pos.mpr hne).ne'
  simp only [npMean, List.length_map, sum_map_affine]
  field_simp
  ring

theorem npMean_const (l : List ℝ) (m : ℝ) (h : ∀ x ∈ l, x = m)
    (hne : l ≠ []) : npMean l = m := by
  have hlen : (l.length : ℝ) ≠ 0 :=
    Nat.cast_ne_zero.mpr (List.length_pos.mpr hne).ne'
  rw [npMean, List.sum_eq_card_nsmul l m h, nsmul_eq_mul]
  field_simp

theorem npMean_nonneg (l : List ℝ) (h : ∀ x ∈ l, 0 ≤ x) : 0 ≤ npMean l :=
  div_nonneg (List.sum_nonneg h) (Nat.cast_nonneg _)

theorem npVar_nonneg (l : List ℝ) : 0 ≤ npVar l := by
  refine npMean_nonneg _ (fun x hx => ?_)
  obtain ⟨y, _, rfl⟩ := List.mem_map.mp hx
  positivity

theorem npStd_nonneg (l : List ℝ) : 0 ≤ npStd l := Real.sqrt_nonneg _

theorem npVar_map_affine (l : List ℝ) (a b : ℝ) (hne : l ≠ []) :
    npVar (l.map (fun x => a * x + b)) = a ^ 2 * npVar l := by
  have hμ := npMean_map_affine l a b hne
  unfold npVar
  rw [hμ, List.map_map]
  have h1 : ((fun x => (x - (a * npMean l + b)) ^ 2) ∘ (fun x => a * x + b))
      = fun x : ℝ => a ^ 2 * (x - npMean l) ^ 2 + 0 := by
    funext x
    simp only [Function.comp_apply]
    ring
  rw [h1]
  have h2 : (fun x : ℝ => a ^ 2 * (x - npMean l) ^ 2 + 0)
      = (fun z : ℝ => a ^ 2 * z + 0) ∘ (fun x : ℝ => (x - npMean l) ^ 2) := rfl
  rw [h2, ← List.map_map, npMean_map_affine _ _ _ (by simpa using hne)]
  ring

theorem npStd_map_affine (l : List ℝ) (a b : ℝ) (hne : l ≠ []) :
    npStd (l.map (fun x => a * x + b)) = |a| * npStd l := by
  unfold npStd
  rw [npVar_map_affine l a b hne, Real.sqrt_mul (sq_nonneg a),
    Real.sqrt_sq_eq_abs]

theorem sum_sq_dev (l : List ℝ) (hne : l ≠ []) :
    (l.map (fun y => (y - npMean l) ^ 2)).sum = l.length * npVar l := by
  have hlen : (l.length : ℝ) ≠ 0 :=
    Nat.cast_ne_zero.mpr (List.length_pos.mpr hne).ne'
  unfold npVar npMean
  rw [List.length_map]
  field_simp

theorem abs_dev_le_sqrt (l : List ℝ) (x : ℝ) (hx : x ∈ l) :
    |x - npMean l| ≤ Real.sqrt l.length * npStd l := by
  have hne : l ≠ [] := List.ne_nil_of_mem hx
  have hsum : (x - npMean l) ^ 2 ≤ (l.map (fun y => (y - npMean l) ^ 2)).sum := by
    refine List.single_le_sum (fun y hy => ?_) _ (List.mem_map_of_mem _ hx)
    obtain ⟨z, _, rfl⟩ := List.mem_map.mp hy
    positivity
  rw [sum_sq_dev l hne] at hsum
  calc |x - npMean l| = Real.sqrt ((x - npMean l) ^ 2) :=
        (Real.sqrt_sq_eq_abs _).symm
    _ ≤ Real.sqrt (l.length * npVar l) := Real.sqrt_le_sqrt hsum
    _ = Real.sqrt l.length * npStd l := Real.sqrt_mul (Nat.cast_nonneg _) _

theorem floor_sum_le (l : List ℝ) :
    (l.map (fun x => ((⌊x⌋ : ℤ) : ℝ))).sum ≤ l.sum := by
  induction l with
  | nil => simp
  | cons y ys ih =>
    simp only [List.map_cons, List.sum_cons]
    have hy := Int.floor_le y
    linarith

theorem sum_lt_floor_sum_add (l : List ℝ) (hne : l ≠ []) :
    l.sum < (l.map (fun x => ((⌊x⌋ : ℤ) : ℝ))).sum + l.length := by
  induction l with
  | nil => cases hne rfl
  | cons y ys ih =>
    cases ys with
    | nil =>
      have hy := Int.lt_floor_add_one y
      simp only [List.map_cons, List.map_nil, List.sum_cons, List.sum_nil,
        List.length_cons, List.length_nil]
      push_cast
      linarith
    | cons z zs =>
      have h2 := ih (by simp)
      have hy := Int.lt_floor_add_one y
      simp only [List.map_cons, List.sum_cons, List.length_cons] at h2 ⊢
      push_cast at h2 ⊢
      linarith

/-! ## Lemmas: clamping and truncation -/

theorem clipChan_nonneg (x : ℝ) : 0 ≤ clipChan x :=
  Int.le_floor.mpr (by push_cast; exact le_max_left (0 : ℝ) (min 255 x))

theorem clipChan_le (x : ℝ) : clipChan x ≤ 255 := by
  have h : max 0 (min 255 x) ≤ (255 : ℝ) :=
    max_le (by norm_num) (min_le_left _ _)
  calc clipChan x ≤ ⌊(255 : ℝ)⌋ := Int.floor_le_floor h
    _ = 255 := by norm_num

theorem clipChan_intCast (v : ℤ) (h0 : 0 ≤ v) (h255 : v ≤ 255) :
    clipChan (v : ℝ) = v := by
  unfold clipChan
  rw [min_eq_right (by exact_mod_cast h255),
    max_eq_right (by exact_mod_cast h0), Int.floor_intCast]

theorem clipChan_near (v : ℤ) (x : ℝ) (h0 : 0 ≤ v) (h255 : v ≤ 255)
    (hx : |x - (v : ℝ)| < 1) : |clipChan x - v| ≤ 1 := by
  rw [abs_lt] at hx
  have hlow : ((v - 1 : ℤ) : ℝ) ≤ max 0 (min 255 x) := by
    have h1 : ((v : ℝ) - 1) < min 255 x := by
      refine lt_min (by exact_mod_cast (by omega : (v - 1 : ℤ) < 255)) ?_
      linarith
    have h2 : min 255 x ≤ max 0 (min 255 x) := le_max_right _ _
    push_cast
    linarith
  have hhigh : max 0 (min 255 x) < ((v + 1 : ℤ) : ℝ) := by
    refine max_lt (by exact_mod_cast (by omega : (0 : ℤ) < v + 1)) ?_
    have h1 : min 255 x ≤ x := min_le_right _ _
    push_cast
    linarith
  have hfl : (v - 1 : ℤ) ≤ clipChan x := Int.le_floor.mpr hlow
  have hfu : clipChan x < v + 1 := Int.floor_lt.mpr hhigh
  rw [abs_le]
  omega

/-! ## Lemmas: shape plumbing for the color engine -/

theorem chanR_map_px (l : List PxR) (F : PxR → PxR) (c : Fin 3) :
    chanR (l.map F) c = l.map (fun p => F p c) := by
  unfold chanR
  rw [List.map_map]
  rfl

theorem chanR_to_np (A : List Px) (c : Fin 3) :
    chanR (to_np_rgb A) c = A.map (fun p => ((p c : ℤ) : ℝ)) := by
  unfold chanR to_np_rgb
  rw [List.map_map]
  rfl

theorem chanR_to_np_ne_nil {A : List Px} (hne : A ≠ []) (c : Fin 3) :
    chanR (to_np_rgb A) c ≠ [] := by
  rw [chanR_to_np]
  simpa using hne

theorem chanR_to_np_clip_back (L : List PxR) (c : Fin 3) :
    chanR (to_np_rgb (clip_back L)) c
      = (chanR L c).map (fun x => ((clipChan x : ℤ) : ℝ)) := by
  unfold chanR to_np_rgb clip_back
  rw [List.map_map, List.map_map, List.map_map]
  rfl

theorem clipChan_eq_floor {x : ℝ} (h0 : 0 ≤ x) (h255 : x ≤ 255) :
    clipChan x = ⌊x⌋ := by
  unfold clipChan
  rw [min_eq_right h255, max_eq_right h0]

/-! ## Lemmas: mode dispatch of `color_match_pixels` -/

theorem color_match_mean_eq (tp gp : List Px) :
    color_match_pixels tp gp "mean"
      = clip_back ((to_np_rgb tp).map (fun p c => p c
          + (npMean (chanR (to_np_rgb gp) c)
            - npMean (chanR (to_np_rgb tp) c)))) := by
  simp [color_match_pixels]

theorem color_match_meanstd_eq (tp gp : List Px) :
    color_match_pixels tp gp "meanstd"
      = clip_back ((to_np_rgb tp).map (fun p c =>
          (p c - npMean (chanR (to_np_rgb tp) c))
            * (npStd (chanR (to_np_rgb gp) c)
              / (npStd (chanR (to_np_rgb tp) c) + EPS))
          + npMean (chanR (to_np_rgb gp) c))) := by
  simp [color_match_pixels]

theorem color_match_luma_eq (tp gp : List Px) :
    color_match_pixels tp gp "luma"
      = clip_back ((lumaStage (to_np_rgb tp) (to_np_rgb gp)).map yuv_to_rgb) := by
  simp [color_match_pixels]

theorem unclipped_mean_eq (tp gp : List Px) :
    color_match_unclipped tp gp "mean"
      = (to_np_rgb tp).map (fun p c => p c
          + (npMean (chanR (to_np_rgb gp) c)
            - npMean (chanR (to_np_rgb tp) c))) := by
  simp [color_match_unclipped]

theorem unclipped_meanstd_eq (tp gp : List Px) :
    color_match_unclipped tp gp "meanstd"
      = (to_np_rgb tp).map (fun p c =>
          (p c - npMean (chanR (to_np_rgb tp) c))
            * (npStd (chanR (to_np_rgb gp) c)
              / (npStd (chanR (to_np_rgb tp) c) + EPS))
          + npMean (chanR (to_np_rgb gp) c)) := by
  simp [color_match_unclipped]

theorem clip_unclipped_eq (tp gp : List Px) (mode : String) :
    color_match_pixels tp gp mode
      = clip_back (color_match_unclipped tp gp mode) := by
  by_cases h1 : mode = "luma" <;> by_cases h2 : mode = "mean" <;>
    simp [color_match_pixels, color_match_unclipped, h1, h2]

theorem clip_back_range (L : List PxR) (p : Px) (hp : p ∈ clip_back L)
    (c : Fin 3) : 0 ≤ p c ∧ p c ≤ 255 := by
  obtain ⟨q, _, rfl⟩ := List.mem_map.mp hp
  exact ⟨clipChan_nonneg (q c), clipChan_le (q c)⟩

theorem npMean_floor_close (l : List ℝ) (hne : l ≠ []) :
    |npMean (l.map (fun x => ((⌊x⌋ : ℤ) : ℝ))) - npMean l| < 1 := by
  have hlen : 0 < (l.length : ℝ) := by
    exact_mod_cast List.length_pos.mpr hne
  have h1 := floor_sum_le l
  have h2 := sum_lt_floor_sum_add l hne
  rw [npMean, npMean, List.length_map, div_sub_div_same, abs_lt]
  constructor
  · rw [lt_div_iff₀ hlen]
    linarith
  · rw [div_lt_one hlen]
    linarith

theorem map_chan_add (L : List PxR) (c : Fin 3) (b : ℝ) :
    L.map (fun p => p c + b)
      = ((L.map (fun p => p c)).map (fun x => 1 * x + b)) := by
  rw [List.map_map]
  refine List.map_congr_left (fun p _ => ?_)
  simp only [Function.comp_apply]
  ring

theorem map_chan_norm (L : List PxR) (c : Fin 3) (μ γ m : ℝ) :
    L.map (fun p => (p c - μ) * γ + m)
      = ((L.map (fun p => p c)).map (fun x => γ * x + (m - γ * μ))) := by
  rw [List.map_map]
  refine List.map_congr_left (fun p _ => ?_)
  simp only [Function.comp_apply]
  ring

/-! ## Claims C1, C2, C9 -/

/-- Claim C1, counterexample.  With 3 tiles and 4 cells the shuffle can
park both copies of tile index 0 in the trimmed tail: the returned
sequence is `[2, 1, 2, 1]`, in which index 1 occurs twice and index 0
never, so the most- and least-frequent counts differ by 2, not at most 1. -/
theorem C1_counterexample :
    make_balanced_assignments 3 4 cRng = Except.ok [2, 1, 2, 1] ∧
    ([2, 1, 2, 1] : List ℕ).count 1 = ([2, 1, 2, 1] : List ℕ).count 0 + 2 := by
  constructor
  · rfl
  · rfl

/-- Claim C1, amended.  For every `N > 0`, `M ≥ 0` and random stream,
`make_balanced_assignments` succeeds with a sequence of length exactly
`M` whose every element lies in `[0, N)`; every index occurs at most
`⌈M/N⌉` times, and when `N` divides `M` every index in `[0, N)` occurs
exactly `M / N` times (so the claimed max-min gap of at most 1 does hold
in that case).  When `N` does not divide `M` the trimming step can leave
a gap of 2 (see the counterexample), which is all this amendment
weakens. -/
theorem C1_assign_balanced_amended (N M : ℕ) (rng : ℕ → ℕ) (hN : 0 < N) :
    ∃ l, make_balanced_assignments N M rng = Except.ok l ∧
      l.length = M ∧ (∀ x ∈ l, x < N) ∧
      (∀ i, l.count i ≤ (M + N - 1) / N) ∧
      (N ∣ M → ∀ i < N, l.count i = M / N) := by
  set base := listRepeat (List.range N) ((M + N - 1) / N) with hbase
  have hperm : (py_shuffle rng base).Perm base := py_shuffle_perm rng base
  have hblen : M ≤ base.length := base_length N M hN
  have hslen : M ≤ (py_shuffle rng base).length := by
    rw [hperm.length_eq]; exact hblen
  refine ⟨(py_shuffle rng base).take M, make_balanced_ok N M rng hN, ?_, ?_, ?_, ?_⟩
  · simpa using hslen
  · intro x hx
    have hx2 : x ∈ py_shuffle rng base := (List.take_sublist _ _).mem hx
    have hx3 : x ∈ base := hperm.mem_iff.mp hx2
    exact List.mem_range.mp (mem_listRepeat hx3)
  · intro i
    calc ((py_shuffle rng base).take M).count i
        ≤ (py_shuffle rng base).count i :=
          (List.take_sublist _ _).count_le i
      _ = base.count i := List.perm_iff_count.mp hperm i
      _ = (M + N - 1) / N * (List.range N).count i := count_listRepeat _ _ _
      _ ≤ (M + N - 1) / N := by
          have hc : (List.range N).count i ≤ 1 := by
            by_cases h : i < N
            · rw [count_range_lt h]
            · rw [List.count_eq_zero_of_not_mem (by simpa using h)]; omega
          calc (M + N - 1) / N * (List.range N).count i
              ≤ (M + N - 1) / N * 1 := Nat.mul_le_mul_left _ hc
            _ = (M + N - 1) / N := Nat.mul_one _
  · rintro ⟨q, hq⟩ i hi
    have hrep : (M + N - 1) / N = q := by
      subst hq
      rw [show N * q + N - 1 = N - 1 + q * N by ring_nf; omega,
        Nat.add_mul_div_right _ _ hN, Nat.div_eq_of_lt (by omega)]
      omega
    have hfull : base.length = M := by
      rw [hbase, length_listRepeat, List.length_range, hrep, hq]
      exact Nat.mul_comm q N
    have htake : (py_shuffle rng base).take M = py_shuffle rng base :=
      List.take_of_length_le (by rw [hperm.length_eq, hfull])
    rw [htake, List.perm_iff_count.mp hperm i, count_listRepeat,
      count_range_lt hi, hrep, hq, Nat.mul_one, Nat.mul_div_cancel_left _ hN]

/-- Claim C1 amended, witness at `N = 2`, `M = 5`. -/
theorem C1_assign_balanced_amended_witness :
    ∃ l, make_balanced_assignments 2 5 (fun _ => 0) = Except.ok l ∧
      l.length = 5 ∧ (∀ x ∈ l, x < 2) ∧
      (∀ i, l.count i ≤ (5 + 2 - 1) / 2) ∧
      (2 ∣ 5 → ∀ i < 2, l.count i = 5 / 2) :=
  C1_assign_balanced_amended 2 5 (fun _ => 0) (by omega)

/-- Claim C2.  The assignment sequence is a deterministic function of the
tile count, the cell count and the seeded generator's stream: the
embedding is pure, its only inputs are `(N, M, rng)` (the code constructs
`random.Random(seed)` locally and threads it explicitly, touching no
global generator), so two calls fed pointwise-equal streams return
identical results. -/
theorem C2_assign_deterministic (N M : ℕ) (r1 r2 : ℕ → ℕ)
    (h : ∀ k, r1 k = r2 k) :
    make_balanced_assignments N M r1 = make_balanced_assignments N M r2 := by
  have hr : r1 = r2 := funext h
  rw [hr]

/-- Claim C2, witness: two syntactically different but pointwise-equal
streams give the same assignment. -/
theorem C2_assign_deterministic_witness :
    make_balanced_assignments 3 4 (fun k => k)
      = make_balanced_assignments 3 4 (fun k => 0 + k) :=
  C2_assign_deterministic 3 4 (fun k => k) (fun k => 0 + k)
    (fun k => (Nat.zero_add k).symm)

/-- Claim C9, counterexample.  `build` on an empty tile set does fail
before any cell is processed, but with Python's `ZeroDivisionError`
(raised by `math.ceil(total_cells / num_tiles)` inside the assignment
generator), not with an `EmptyTileSet` error: the code has no such check. -/
theorem C9_counterexample :
    build_mosaic_random [] 20 20 [] "meanstd" (fun _ => 0) 10
        ≠ Except.error PyError.emptyTileSet ∧
    build_mosaic_random [] 20 20 [] "meanstd" (fun _ => 0) 10
        = Except.error PyError.zeroDivisionError := by
  constructor
  · rw [show build_mosaic_random [] 20 20 [] "meanstd" (fun _ => 0) 10
        = Except.error PyError.zeroDivisionError from rfl]
    simp
  · rfl

/-- Claim C9, amended.  For every target buffer, geometry, mode and
random stream, `build` with an empty tile set fails — before generating
any assignment sequence and before processing any cell — but the failure
is an uncaught `ZeroDivisionError` from the repeat-count division, not a
dedicated `EmptyTileSet` error. -/
theorem C9_empty_tiles_amended (target : List Px) (W H tile_size : ℕ)
    (mode : String) (rng : ℕ → ℕ) :
    build_mosaic_random target W H [] mode rng tile_size
      = Except.error PyError.zeroDivisionError := by
  rfl

/-! ## Claims C7, C8, C10 -/

/-- Claim C7.  In every mode, `color_match_pixels` equals the unclipped
float transform (which contains no clamping or rounding in any branch or
intermediate channel computation) followed by one final `_clip_back`
pass, and consequently every output channel value lies in `[0, 255]`.
The conversion in `_clip_back` truncates; truncation of the clamped
nonnegative values is the floor-rounding in the claim. -/
theorem C7_clip_once_range (tp gp : List Px) (mode : String) :
    color_match_pixels tp gp mode
        = clip_back (color_match_unclipped tp gp mode) ∧
    ∀ p ∈ color_match_pixels tp gp mode, ∀ c, 0 ≤ p c ∧ p c ≤ 255 := by
  refine ⟨clip_unclipped_eq tp gp mode, fun p hp c => ?_⟩
  rw [clip_unclipped_eq tp gp mode] at hp
  exact clip_back_range _ p hp c

/-- Claim C7, witness at a concrete call. -/
theorem C7_clip_once_range_witness :
    color_match_pixels [gray 3] [gray 7] "mean"
        = clip_back (color_match_unclipped [gray 3] [gray 7] "mean") ∧
    ∀ p ∈ color_match_pixels [gray 3] [gray 7] "mean",
      ∀ c, 0 ≤ p c ∧ p c ≤ 255 :=
  C7_clip_once_range [gray 3] [gray 7] "mean"

/-- Claim C8, counterexample.  `color_match_pixels` never checks the two
buffer lengths: all statistics are per-channel scalars, so mismatched
lengths broadcast fine.  On the one-pixel source `[(10,10,10)]` against
the two-pixel target `[(0,0,0), (2,2,2)]` in `"mean"` mode it raises
nothing and returns the buffer `[(1,1,1)]` — there is no `ShapeMismatch`
failure, and the cell is processed normally. -/
theorem C8_counterexample :
    ([gray 10] : List Px).length ≠ ([gray 0, gray 2] : List Px).length ∧
    color_match_pixels [gray 10] [gray 0, gray 2] "mean" = [gray 1] := by
  constructor
  · simp
  · simp only [color_match_pixels, to_np_rgb, chanR, clip_back, npMean, gray,
      List.map_cons, List.map_nil, List.sum_cons, List.sum_nil,
      List.length_cons, List.length_nil, String.reduceEq, if_false, if_true,
      ite_false, ite_true, reduceIte]
    refine List.cons_eq_cons.mpr ⟨?_, rfl⟩
    funext c
    norm_num [clipChan, gray]

/-- Claim C8, amended.  The transfer engine performs no length
validation and has no failure path at all: for all pixel buffers (of
equal or unequal lengths) and every mode it returns an output buffer
whose length is the source's length.  In particular calls with buffers
of equal length never fail, as the claim says, but mismatched lengths
produce a silent output instead of a `ShapeMismatch` error. -/
theorem C8_no_length_check_amended (A B : List Px) (mode : String) :
    (color_match_pixels A B mode).length = A.length := by
  by_cases h1 : mode = "luma" <;> by_cases h2 : mode = "mean" <;>
    simp [color_match_pixels, color_match_unclipped, h1, h2, clip_back,
      lumaStage, to_np_rgb]

/-- Claim C10.  For a constant source buffer (every pixel equal, hence
per-channel source standard deviation 0) and any target of equal length,
the `"meanstd"` transfer returns the constant buffer whose every pixel
is the target's per-channel mean, clamped to `[0, 255]` and truncated to
an integer: the source deviations `(value - source_mean)` all vanish, so
the gain (whatever `sd_g / (sd_t + EPS)` evaluates to) multiplies zero. -/
theorem C10_constant_source_meanstd (A B : List Px) (p0 : Px)
    (hconst : ∀ q ∈ A, q = p0) (hne : A ≠ []) (hlen : A.length = B.length) :
    color_match_pixels A B "meanstd"
      = A.map (fun _ => (fun c => clipChan (npMean (chanR (to_np_rgb B) c)))) := by
  rw [color_match_meanstd_eq]
  unfold clip_back to_np_rgb
  rw [List.map_map, List.map_map]
  refine List.map_congr_left (fun q hq => ?_)
  funext c
  have hq0 : q = p0 := hconst q hq
  have hmu : npMean (chanR (List.map (fun (p : Px) (c : Fin 3) => ((p c : ℤ) : ℝ)) A) c)
      = ((p0 c : ℤ) : ℝ) := by
    rw [show List.map (fun (p : Px) (c : Fin 3) => ((p c : ℤ) : ℝ)) A = to_np_rgb A
      from rfl, chanR_to_np]
    refine npMean_const _ _ (fun x hx => ?_) (by simpa using hne)
    obtain ⟨r, hr, rfl⟩ := List.mem_map.mp hx
    rw [hconst r hr]
  simp only [Function.comp_apply, hq0, hmu, sub_self, zero_mul, zero_add]

/-- Claim C10, witness on a concrete constant source. -/
theorem C10_constant_source_meanstd_witness :
    color_match_pixels [gray 5, gray 5] [gray 0, gray 10] "meanstd"
      = ([gray 5, gray 5] : List Px).map
          (fun _ => (fun c => clipChan (npMean (chanR (to_np_rgb [gray 0, gray 10]) c)))) :=
  C10_constant_source_meanstd [gray 5, gray 5] [gray 0, gray 10] (gray 5)
    (by
      intro q hq
      simp only [List.mem_cons, List.not_mem_nil, or_false] at hq
      rcases hq with h | h <;> exact h)
    (by simp) (by simp)

/-! ## Claims C4, C3 -/

/-- Claim C4, counterexample.  In `"mean"` mode with source
`[(0,0,0), (200,200,200)]` and target `[(200,200,200), (200,200,200)]`
the shift is `+100` per channel, the second pixel lands at `300` and is
clamped to `255`: the output is `[(100,100,100), (255,255,255)]` with
per-channel mean `177.5`, while the target mean is `200` — a gap of
`22.5`, far beyond any rounding tolerance (the buffers have equal
length, so the claim applies). -/
theorem C4_counterexample :
    ([gray 0, gray 200] : List Px).length
        = ([gray 200, gray 200] : List Px).length ∧
    color_match_pixels [gray 0, gray 200] [gray 200, gray 200] "mean"
        = [gray 100, gray 255] ∧
    npMean (chanR (to_np_rgb [gray 100, gray 255]) 0) = 355 / 2 ∧
    npMean (chanR (to_np_rgb [gray 200, gray 200]) 0) = 200 ∧
    ¬ |(355 / 2 : ℝ) - 200| ≤ 1 := by
  refine ⟨rfl, ?_, ?_, ?_, ?_⟩
  · simp only [color_match_pixels, to_np_rgb, chanR, clip_back, npMean, gray,
      List.map_cons, List.map_nil, List.sum_cons, List.sum_nil,
      List.length_cons, List.length_nil, String.reduceEq, if_false, if_true,
      ite_false, ite_true, reduceIte]
    refine List.cons_eq_cons.mpr ⟨?_, List.cons_eq_cons.mpr ⟨?_, rfl⟩⟩ <;>
      · funext c
        norm_num [clipChan, gray]
  · norm_num [npMean, chanR, to_np_rgb, gray]
  · norm_num [npMean, chanR, to_np_rgb, gray]
  · rw [show (355 / 2 : ℝ) - 200 = -(45 / 2) by norm_num, abs_neg,
      abs_of_nonneg (by norm_num : (0 : ℝ) ≤ 45 / 2)]
    norm_num

/-- Claim C4, amended.  In `"mean"` mode, for nonempty equal-length
buffers: the per-channel mean of the transformed values *before* the
final clamp-and-truncate equals the target's per-channel mean exactly;
and whenever the transformed values all lie inside `[0, 255]` (so the
clamp is inactive) the integer output's per-channel mean is within 1 of
the target's (the truncation loses less than one level per pixel).
When transformed values fall outside `[0, 255]`, clamping can move the
output mean arbitrarily far from the target mean (see the
counterexample), which is all this amendment excludes. -/
theorem C4_mean_shift_amended (A B : List Px) (hne : A ≠ [])
    (hlen : A.length = B.length) :
    (∀ c, npMean (chanR (color_match_unclipped A B "mean") c)
        = npMean (chanR (to_np_rgb B) c)) ∧
    ((∀ p ∈ color_match_unclipped A B "mean", ∀ c, 0 ≤ p c ∧ p c ≤ 255) →
      ∀ c, |npMean (chanR (to_np_rgb (color_match_pixels A B "mean")) c)
          - npMean (chanR (to_np_rgb B) c)| < 1) := by
  have hchan : ∀ c, chanR (color_match_unclipped A B "mean") c
      = (chanR (to_np_rgb A) c).map (fun x => 1 * x
        + (npMean (chanR (to_np_rgb B) c) - npMean (chanR (to_np_rgb A) c))) := by
    intro c
    rw [unclipped_mean_eq, chanR_map_px]
    rw [show chanR (to_np_rgb A) c = (to_np_rgb A).map (fun p => p c) from rfl]
    exact map_chan_add _ _ _
  have hmean : ∀ c, npMean (chanR (color_match_unclipped A B "mean") c)
      = npMean (chanR (to_np_rgb B) c) := by
    intro c
    rw [hchan c, npMean_map_affine _ _ _ (chanR_to_np_ne_nil hne c)]
    ring
  refine ⟨hmean, fun hrange c => ?_⟩
  have hunc_ne : color_match_unclipped A B "mean" ≠ [] := by
    rw [unclipped_mean_eq]
    simp [to_np_rgb, hne]
  have hchan_ne : chanR (color_match_unclipped A B "mean") c ≠ [] := by
    unfold chanR
    simpa using hunc_ne
  have hout : chanR (to_np_rgb (color_match_pixels A B "mean")) c
      = (chanR (color_match_unclipped A B "mean") c).map
          (fun x => ((⌊x⌋ : ℤ) : ℝ)) := by
    rw [clip_unclipped_eq A B "mean", chanR_to_np_clip_back]
    refine List.map_congr_left (fun x hx => ?_)
    obtain ⟨q, hq, rfl⟩ := List.mem_map.mp hx
    have hr := hrange q hq c
    rw [clipChan_eq_floor hr.1 hr.2]
  rw [hout, ← hmean c]
  exact npMean_floor_close _ hchan_ne

/-- Claim C4 amended, witness at a concrete call. -/
theorem C4_mean_shift_amended_witness :
    (∀ c, npMean (chanR (color_match_unclipped [gray 0, gray 2] [gray 0, gray 2] "mean") c)
        = npMean (chanR (to_np_rgb [gray 0, gray 2]) c)) ∧
    ((∀ p ∈ color_match_unclipped [gray 0, gray 2] [gray 0, gray 2] "mean",
        ∀ c, 0 ≤ p c ∧ p c ≤ 255) →
      ∀ c, |npMean (chanR (to_np_rgb (color_match_pixels [gray 0, gray 2] [gray 0, gray 2] "mean")) c)
          - npMean (chanR (to_np_rgb [gray 0, gray 2]) c)| < 1) :=
  C4_mean_shift_amended [gray 0, gray 2] [gray 0, gray 2] (by simp) rfl

theorem ceA_std : ∀ c, npStd (chanR (to_np_rgb
    [gray 0, gray 60, gray 80, gray 140]) c) = 50 := by
  intro c
  have hv : npVar (chanR (to_np_rgb [gray 0, gray 60, gray 80, gray 140]) c)
      = 2500 := by
    simp [npVar, npMean, chanR, to_np_rgb, gray]
    norm_num
  rw [npStd, hv, show (2500 : ℝ) = 50 ^ 2 by norm_num,
    Real.sqrt_sq (by norm_num)]

theorem ceB_std : ∀ c, npStd (chanR (to_np_rgb
    [gray 0, gray 0, gray 120, gray 120]) c) = 60 := by
  intro c
  have hv : npVar (chanR (to_np_rgb [gray 0, gray 0, gray 120, gray 120]) c)
      = 3600 := by
    simp [npVar, npMean, chanR, to_np_rgb, gray]
    norm_num
  rw [npStd, hv, show (3600 : ℝ) = 60 ^ 2 by norm_num,
    Real.sqrt_sq (by norm_num)]

/-- Claim C3, counterexample.  In `"meanstd"` mode with the equal-length
buffers `A = [0, 60, 80, 140]` and `B = [0, 0, 120, 120]` (gray levels):
`mu_A = 70`, `sd_A = 50`, `mu_B = 60`, `sd_B = 60`, so the first source
pixel maps to `60 - 70 * 60/(50 + 1e-6) ≈ -24` and is clamped to `0`.
The output is `[0, 48, 71, 143]` with per-channel mean `65.5` against
the target's `60`: a gap of `5.5`, beyond any floating-point tolerance,
so the output statistics do not equal `B`'s. -/
theorem C3_counterexample :
    ([gray 0, gray 60, gray 80, gray 140] : List Px).length
        = ([gray 0, gray 0, gray 120, gray 120] : List Px).length ∧
    color_match_pixels [gray 0, gray 60, gray 80, gray 140]
        [gray 0, gray 0, gray 120, gray 120] "meanstd"
        = [gray 0, gray 48, gray 71, gray 143] ∧
    npMean (chanR (to_np_rgb [gray 0, gray 48, gray 71, gray 143]) 0) = 131 / 2 ∧
    npMean (chanR (to_np_rgb [gray 0, gray 0, gray 120, gray 120]) 0) = 60 ∧
    ¬ |(131 / 2 : ℝ) - 60| ≤ 1 := by
  have hA := ceA_std
  have hB := ceB_std
  refine ⟨rfl, ?_, ?_, ?_, ?_⟩
  · simp only [color_match_pixels, String.reduceEq, if_false, ite_false,
      reduceIte]
    rw [show (to_np_rgb [gray 0, gray 60, gray 80, gray 140]).map
        (fun p c => (p c - npMean (chanR (to_np_rgb [gray 0, gray 60, gray 80, gray 140]) c))
          * (npStd (chanR (to_np_rgb [gray 0, gray 0, gray 120, gray 120]) c)
            / (npStd (chanR (to_np_rgb [gray 0, gray 60, gray 80, gray 140]) c) + EPS))
          + npMean (chanR (to_np_rgb [gray 0, gray 0, gray 120, gray 120]) c))
      = (to_np_rgb [gray 0, gray 60, gray 80, gray 140]).map
        (fun p c => (p c - 70) * (60 / (50 + EPS)) + 60) from ?_]
    · simp only [to_np_rgb, clip_back, gray, List.map_cons, List.map_nil]
      refine List.cons_eq_cons.mpr ⟨?_, List.cons_eq_cons.mpr ⟨?_,
        List.cons_eq_cons.mpr ⟨?_, List.cons_eq_cons.mpr ⟨?_, rfl⟩⟩⟩⟩ <;>
        · funext c
          norm_num [clipChan, EPS, gray]
    · refine List.map_congr_left (fun p hp => ?_)
      funext c
      rw [hA c, hB c,
        show npMean (chanR (to_np_rgb [gray 0, gray 60, gray 80, gray 140]) c) = 70 by
          simp [npMean, chanR, to_np_rgb, gray]; norm_num,
        show npMean (chanR (to_np_rgb [gray 0, gray 0, gray 120, gray 120]) c) = 60 by
          simp [npMean, chanR, to_np_rgb, gray]; norm_num]
  · norm_num [npMean, chanR, to_np_rgb, gray]
  · norm_num [npMean, chanR, to_np_rgb, gray]
  · rw [show (131 / 2 : ℝ) - 60 = 11 / 2 by norm_num,
      abs_of_nonneg (by norm_num : (0 : ℝ) ≤ 11 / 2)]
    norm_num

/-- Claim C3, amended.  In `"meanstd"` mode, for nonempty equal-length
buffers and each channel: the per-channel mean of the transformed values
*before* the final clamp-and-truncate equals the target's mean exactly;
their per-channel standard deviation equals the target's standard
deviation scaled by `sd_A / (sd_A + EPS)` (within the `EPS`-relative
factor the stabiliser introduces, which is the claim's "within
floating-point tolerance" caveat made exact); and when the target's
standard deviation is 0 the actual integer output is a constant buffer,
every pixel being the clamped-truncated target mean.  After clamping,
the output statistics can move arbitrarily far from the target's (see
the counterexample), which is what this amendment excludes. -/
theorem C3_meanstd_stats_amended (A B : List Px) (hne : A ≠ [])
    (hlen : A.length = B.length) (c : Fin 3) :
    npMean (chanR (color_match_unclipped A B "meanstd") c)
        = npMean (chanR (to_np_rgb B) c) ∧
    npStd (chanR (color_match_unclipped A B "meanstd") c)
        = npStd (chanR (to_np_rgb B) c)
          * (npStd (chanR (to_np_rgb A) c)
            / (npStd (chanR (to_np_rgb A) c) + EPS)) ∧
    (npStd (chanR (to_np_rgb B) c) = 0 →
      ∀ p ∈ color_match_pixels A B "meanstd",
        p c = clipChan (npMean (chanR (to_np_rgb B) c))) := by
  have hchan : chanR (color_match_unclipped A B "meanstd") c
      = (chanR (to_np_rgb A) c).map
          (fun x => (npStd (chanR (to_np_rgb B) c)
              / (npStd (chanR (to_np_rgb A) c) + EPS)) * x
            + (npMean (chanR (to_np_rgb B) c)
              - (npStd (chanR (to_np_rgb B) c)
                / (npStd (chanR (to_np_rgb A) c) + EPS))
                * npMean (chanR (to_np_rgb A) c))) := by
    rw [unclipped_meanstd_eq, chanR_map_px]
    rw [show chanR (to_np_rgb A) c = (to_np_rgb A).map (fun p => p c) from rfl]
    exact map_chan_norm _ _ _ _ _
  have hEPS : (0 : ℝ) < EPS := by norm_num [EPS]
  have hden : (0 : ℝ) < npStd (chanR (to_np_rgb A) c) + EPS := by
    have := npStd_nonneg (chanR (to_np_rgb A) c)
    linarith
  refine ⟨?_, ?_, ?_⟩
  · rw [hchan, npMean_map_affine _ _ _ (chanR_to_np_ne_nil hne c)]
    ring
  · rw [hchan, npStd_map_affine _ _ _ (chanR_to_np_ne_nil hne c),
      abs_of_nonneg (div_nonneg (npStd_nonneg _) (le_of_lt hden))]
    ring
  · intro h0 p hp
    rw [clip_unclipped_eq, unclipped_meanstd_eq] at hp
    obtain ⟨q, hq, rfl⟩ := List.mem_map.mp hp
    obtain ⟨r, _, rfl⟩ := List.mem_map.mp hq
    simp only [h0, zero_div, zero_mul, mul_zero, zero_add]

/-- Claim C3 amended, witness at a concrete call. -/
theorem C3_meanstd_stats_amended_witness :
    npMean (chanR (color_match_unclipped [gray 0, gray 2] [gray 0, gray 2] "meanstd") 0)
        = npMean (chanR (to_np_rgb [gray 0, gray 2]) 0) ∧
    npStd (chanR (color_match_unclipped [gray 0, gray 2] [gray 0, gray 2] "meanstd") 0)
        = npStd (chanR (to_np_rgb [gray 0, gray 2]) 0)
          * (npStd (chanR (to_np_rgb [gray 0, gray 2]) 0)
            / (npStd (chanR (to_np_rgb [gray 0, gray 2]) 0) + EPS)) ∧
    (npStd (chanR (to_np_rgb [gray 0, gray 2]) 0) = 0 →
      ∀ p ∈ color_match_pixels [gray 0, gray 2] [gray 0, gray 2] "meanstd",
        p 0 = clipChan (npMean (chanR (to_np_rgb [gray 0, gray 2]) 0))) :=
  C3_meanstd_stats_amended [gray 0, gray 2] [gray 0, gray 2] (by simp) rfl 0

/-! ## Lemmas: statistics of outlier and constant lists (for claim C5) -/

theorem npMean_replicate (m : ℕ) (a : ℝ) (h : m ≠ 0) :
    npMean (List.replicate m a) = a := by
  refine npMean_const _ a (fun x hx => ?_) (by simpa using h)
  exact (List.eq_of_mem_replicate hx)

theorem npVar_replicate (m : ℕ) (a : ℝ) (h : m ≠ 0) :
    npVar (List.replicate m a) = 0 := by
  unfold npVar
  rw [npMean_replicate m a h, List.map_replicate]
  simp [npMean, List.sum_replicate]

theorem npStd_replicate (m : ℕ) (a : ℝ) (h : m ≠ 0) :
    npStd (List.replicate m a) = 0 := by
  rw [npStd, npVar_replicate m a h, Real.sqrt_zero]

theorem npMean_outlier (n : ℕ) (c : ℝ) :
    npMean (List.replicate n 0 ++ [c]) = c / ((n : ℝ) + 1) := by
  simp [npMean, List.sum_replicate, List.sum_append]

theorem npVar_outlier (n : ℕ) (c : ℝ) :
    npVar (List.replicate n 0 ++ [c]) = c ^ 2 * n / ((n : ℝ) + 1) ^ 2 := by
  have hn1 : ((n : ℝ) + 1) ≠ 0 := by positivity
  unfold npVar
  rw [npMean_outlier n c, List.map_append, List.map_replicate]
  simp only [List.map_cons, List.map_nil]
  rw [npMean]
  rw [List.sum_append, List.sum_replicate]
  simp only [List.sum_cons, List.sum_nil, List.length_append,
    List.length_replicate, List.length_cons, List.length_nil, smul_eq_mul]
  push_cast
  field_simp
  ring

theorem rgb_to_yuv_zero (p : PxR) :
    rgb_to_yuv p 0 = 0.299 * p 0 + 0.587 * p 1 + 0.114 * p 2 := rfl

theorem rgb_to_yuv_one (p : PxR) :
    rgb_to_yuv p 1 = -0.147 * p 0 + -0.289 * p 1 + 0.436 * p 2 := rfl

theorem rgb_to_yuv_two (p : PxR) :
    rgb_to_yuv p 2 = 0.615 * p 0 + -0.515 * p 1 + -0.100 * p 2 := rfl

theorem yuv_to_rgb_zero (p : PxR) :
    yuv_to_rgb p 0 = 1.0 * p 0 + 0.0 * p 1 + 1.13983 * p 2 := rfl

theorem yuv_to_rgb_one (p : PxR) :
    yuv_to_rgb p 1 = 1.0 * p 0 + -0.39465 * p 1 + -0.58060 * p 2 := rfl

theorem yuv_to_rgb_two (p : PxR) :
    yuv_to_rgb p 2 = 1.0 * p 0 + 2.03211 * p 1 + 0.0 * p 2 := rfl

theorem npMean_outlier_head (n : ℕ) (c : ℝ) :
    npMean (c :: List.replicate n 0) = c / ((n : ℝ) + 1) := by
  simp [npMean, List.sum_replicate]

theorem npVar_outlier_head (n : ℕ) (c : ℝ) :
    npVar (c :: List.replicate n 0) = c ^ 2 * n / ((n : ℝ) + 1) ^ 2 := by
  have hn1 : ((n : ℝ) + 1) ≠ 0 := by positivity
  unfold npVar
  rw [npMean_outlier_head n c]
  simp only [List.map_cons, List.map_replicate]
  rw [npMean]
  simp only [List.sum_cons, List.sum_replicate, List.length_cons,
    List.length_replicate, smul_eq_mul]
  push_cast
  field_simp
  ring

/-! ## Lemmas: luma statistics of the huge near-constant buffers -/

theorem hugeTile_y : chanR ((to_np_rgb hugeTile).map rgb_to_yuv) 0
    = List.replicate (10 ^ 12) 0 ++ [0.299] := by
  rw [hugeTile, to_np_rgb, chanR]
  rw [List.map_append, List.map_append, List.map_append,
    List.map_replicate, List.map_replicate, List.map_replicate]
  simp only [List.map_cons, List.map_nil]
  congr 1
  · congr 1
    norm_num [rgb_to_yuv, gray]
  · congr 1
    norm_num [rgb_to_yuv, redOne]

theorem hugeTarget_y : chanR ((to_np_rgb hugeTarget).map rgb_to_yuv) 0
    = List.replicate (10 ^ 12 + 1) 100 := by
  rw [hugeTarget, to_np_rgb, chanR]
  rw [List.map_replicate, List.map_replicate, List.map_replicate]
  congr 1
  norm_num [rgb_to_yuv, gray]

theorem hugeTile_mu : npMean (chanR ((to_np_rgb hugeTile).map rgb_to_yuv) 0)
    = 0.299 / ((10 ^ 12 : ℝ) + 1) := by
  rw [hugeTile_y, npMean_outlier]
  norm_num

theorem hugeTile_sd : npStd (chanR ((to_np_rgb hugeTile).map rgb_to_yuv) 0)
    = 299000 / ((10 ^ 12 : ℝ) + 1) := by
  rw [npStd, hugeTile_y, npVar_outlier]
  rw [show (0.299 : ℝ) ^ 2 * ((10 ^ 12 : ℕ) : ℝ) / (((10 ^ 12 : ℕ) : ℝ) + 1) ^ 2
      = (299000 / ((10 ^ 12 : ℝ) + 1)) ^ 2 by push_cast; ring_nf]
  exact Real.sqrt_sq (by positivity)

theorem hugeTarget_mu : npMean (chanR ((to_np_rgb hugeTarget).map rgb_to_yuv) 0)
    = 100 := by
  rw [hugeTarget_y, npMean_replicate _ _ (by norm_num)]

theorem hugeTarget_sd : npStd (chanR ((to_np_rgb hugeTarget).map rgb_to_yuv) 0)
    = 0 := by
  rw [hugeTarget_y, npStd_replicate _ _ (by norm_num)]

theorem hugeTile_sd_small :
    ¬ npStd (chanR ((to_np_rgb hugeTile).map rgb_to_yuv) 0) > EPS := by
  rw [hugeTile_sd, EPS]
  rw [not_lt, div_le_div_iff₀ (by positivity) (by positivity)]
  norm_num

theorem huge_gain : lumaGain (to_np_rgb hugeTile) (to_np_rgb hugeTarget) = 1 := by
  rw [lumaGain]
  simp only [if_neg hugeTile_sd_small]

theorem huge_bias : lumaBias (to_np_rgb hugeTile) (to_np_rgb hugeTarget)
    = 100 - 0.299 / ((10 ^ 12 : ℝ) + 1) := by
  rw [lumaBias, huge_gain, hugeTarget_mu, hugeTile_mu, mul_one]

theorem hugeTile_cons :
    hugeTile = gray 0 :: (List.replicate 999999999999 (gray 0) ++ [redOne]) := by
  rw [hugeTile, show (10 ^ 12 : ℕ) = 999999999999 + 1 by norm_num,
    List.replicate_succ, List.cons_append]

/-! ## Claim C5 -/

/-- Claim C5, counterexample.  The claim's gain formula
`gain = target_luma_std / (source_luma_std + EPS)` disagrees with the
code whenever `0 < source_luma_std ≤ EPS`, which integer pixels reach
only on huge buffers: on `hugeTile` (`10^12` black pixels and one
`(1,0,0)`, luma standard deviation `299000/(10^12+1) ≈ 3e-7`) against
the constant `hugeTarget` (equal length, luma standard deviation 0), the
code takes `gain = 1.0` and shifts, making the first output pixel's red
channel `⌊100 - 0.299/(10^12+1)⌋ = 99`, while the specification's
formula takes `gain = 0` and produces `100` there. -/
theorem C5_counterexample :
    (hugeTile : List Px).length = hugeTarget.length ∧
    npStd (chanR ((to_np_rgb hugeTile).map rgb_to_yuv) 0) ≠ 0 ∧
    ((color_match_pixels hugeTile hugeTarget "luma").headD (gray 0)) 0 = 99 ∧
    ((color_match_luma_spec hugeTile hugeTarget).headD (gray 0)) 0 = 100 := by
  refine ⟨?_, ?_, ?_, ?_⟩
  · rw [hugeTile, hugeTarget, List.length_append, List.length_replicate,
      List.length_replicate]
    norm_num
  · rw [hugeTile_sd]
    positivity
  · rw [color_match_luma_eq, lumaStage, huge_gain, huge_bias, hugeTile_cons,
      to_np_rgb]
    simp only [List.map_cons, clip_back, List.headD_cons]
    rw [yuv_to_rgb_zero]
    simp only [if_pos (rfl : (0 : Fin 3) = 0),
      if_neg (by decide : ¬(1 : Fin 3) = 0),
      if_neg (by decide : ¬(2 : Fin 3) = 0),
      rgb_to_yuv_zero, rgb_to_yuv_one, rgb_to_yuv_two, gray]
    norm_num [clipChan]
  · simp only [color_match_luma_spec]
    rw [hugeTarget_sd, hugeTarget_mu]
    simp only [zero_div, mul_zero, sub_zero, zero_add]
    rw [hugeTile_cons, to_np_rgb]
    simp only [List.map_cons, clip_back, List.headD_cons]
    rw [yuv_to_rgb_zero]
    simp only [if_pos (rfl : (0 : Fin 3) = 0),
      if_neg (by decide : ¬(1 : Fin 3) = 0),
      if_neg (by decide : ¬(2 : Fin 3) = 0),
      rgb_to_yuv_zero, rgb_to_yuv_one, rgb_to_yuv_two, gray]
    norm_num [clipChan]

/-- Claim C5, amended.  For all pixel buffers `A`, `B` of equal length,
the `"luma"` transfer converts `A` to YUV, scales-and-shifts only the
luma column — `luma' = luma * gain + bias` with
`bias = target_luma_mean - source_luma_mean * gain` — and leaves both
chroma columns of every pixel exactly as computed from `A`, then
converts back to RGB and clamps once; but
`gain = target_luma_std / (source_luma_std + EPS)` only when
`source_luma_std > EPS`, and `gain = 1` otherwise (the code's guard,
which the claim's formula omits; see the counterexample). -/
theorem C5_luma_chroma_amended (A B : List Px) (hlen : A.length = B.length) :
    color_match_pixels A B "luma"
        = clip_back ((lumaStage (to_np_rgb A) (to_np_rgb B)).map yuv_to_rgb) ∧
    List.Forall₂ (fun q p => q 1 = rgb_to_yuv p 1 ∧ q 2 = rgb_to_yuv p 2 ∧
        q 0 = rgb_to_yuv p 0 * lumaGain (to_np_rgb A) (to_np_rgb B)
          + lumaBias (to_np_rgb A) (to_np_rgb B))
      (lumaStage (to_np_rgb A) (to_np_rgb B)) (to_np_rgb A) ∧
    (EPS < npStd (chanR ((to_np_rgb A).map rgb_to_yuv) 0) →
      lumaGain (to_np_rgb A) (to_np_rgb B)
        = npStd (chanR ((to_np_rgb B).map rgb_to_yuv) 0)
          / (npStd (chanR ((to_np_rgb A).map rgb_to_yuv) 0) + EPS)) ∧
    (npStd (chanR ((to_np_rgb A).map rgb_to_yuv) 0) ≤ EPS →
      lumaGain (to_np_rgb A) (to_np_rgb B) = 1) := by
  refine ⟨color_match_luma_eq A B, ?_, ?_, ?_⟩
  · rw [lumaStage]
    rw [List.forall₂_map_left_iff, List.forall₂_map_left_iff,
      List.forall₂_same]
    intro p _
    refine ⟨?_, ?_, ?_⟩
    · simp only [if_neg (by decide : ¬(1 : Fin 3) = 0)]
    · simp only [if_neg (by decide : ¬(2 : Fin 3) = 0)]
    · simp
  · intro h
    rw [lumaGain]
    simp only [if_pos h]
  · intro h
    rw [lumaGain]
    simp only [if_neg (not_lt.mpr h)]

/-- Claim C5 amended, witness at a concrete call. -/
theorem C5_luma_chroma_amended_witness :
    color_match_pixels [gray 4] [gray 9] "luma"
        = clip_back ((lumaStage (to_np_rgb [gray 4]) (to_np_rgb [gray 9])).map yuv_to_rgb) ∧
    List.Forall₂ (fun q p => q 1 = rgb_to_yuv p 1 ∧ q 2 = rgb_to_yuv p 2 ∧
        q 0 = rgb_to_yuv p 0 * lumaGain (to_np_rgb [gray 4]) (to_np_rgb [gray 9])
          + lumaBias (to_np_rgb [gray 4]) (to_np_rgb [gray 9]))
      (lumaStage (to_np_rgb [gray 4]) (to_np_rgb [gray 9])) (to_np_rgb [gray 4]) ∧
    (EPS < npStd (chanR ((to_np_rgb [gray 4]).map rgb_to_yuv) 0) →
      lumaGain (to_np_rgb [gray 4]) (to_np_rgb [gray 9])
        = npStd (chanR ((to_np_rgb [gray 9]).map rgb_to_yuv) 0)
          / (npStd (chanR ((to_np_rgb [gray 4]).map rgb_to_yuv) 0) + EPS)) ∧
    (npStd (chanR ((to_np_rgb [gray 4]).map rgb_to_yuv) 0) ≤ EPS →
      lumaGain (to_np_rgb [gray 4]) (to_np_rgb [gray 9]) = 1) :=
  C5_luma_chroma_amended [gray 4] [gray 9] rfl

/-! ## Lemmas: ingredients of the idempotence bound (claim C6) -/

theorem clip_map (L : List PxR) (f : PxR → PxR) :
    clip_back (L.map f) = L.map (fun P => (fun c => clipChan (f P c))) := by
  unfold clip_back
  rw [List.map_map]
  exact List.map_congr_left (fun P _ => rfl)

theorem clip_map_map (L : List PxR) (f g : PxR → PxR) :
    clip_back ((L.map f).map g)
      = L.map (fun P => (fun c => clipChan (g (f P) c))) := by
  rw [List.map_map]
  unfold clip_back
  rw [List.map_map]
  exact List.map_congr_left (fun P _ => rfl)

theorem forall2_of_pointwise (A : List Px) (F : PxR → Px)
    (h : ∀ p ∈ A, ∀ c, |F (fun c2 => ((p c2 : ℤ) : ℝ)) c - p c| ≤ 1) :
    List.Forall₂ (fun q p => ∀ c, |q c - p c| ≤ 1)
      ((to_np_rgb A).map F) A := by
  rw [to_np_rgb, List.map_map, List.forall₂_map_left_iff, List.forall₂_same]
  exact h

theorem ratio_le_one (σ : ℝ) (hσ : 0 ≤ σ) : σ / (σ + EPS) ≤ 1 := by
  have hεpos : (0 : ℝ) < EPS := by norm_num [EPS]
  rw [div_le_one (by linarith)]
  linarith

theorem dev_scaled_le (l : List ℝ) (x : ℝ) (hx : x ∈ l)
    (hn : l.length ≤ 640000000000) :
    |x - npMean l| * (EPS / (npStd l + EPS)) ≤ 4 / 5 := by
  have hσ := npStd_nonneg l
  have hεpos : (0 : ℝ) < EPS := by norm_num [EPS]
  have hden : 0 < npStd l + EPS := by linarith
  have h1 : |x - npMean l| ≤ Real.sqrt l.length * npStd l :=
    abs_dev_le_sqrt l x hx
  have hsq : Real.sqrt l.length ≤ 800000 := by
    rw [show (800000 : ℝ) = Real.sqrt (800000 ^ 2) from
      (Real.sqrt_sq (by norm_num)).symm]
    apply Real.sqrt_le_sqrt
    calc (l.length : ℝ) ≤ 640000000000 := by exact_mod_cast hn
      _ = 800000 ^ 2 := by norm_num
  have hb : npStd l / (npStd l + EPS) ≤ 1 := ratio_le_one _ hσ
  have h2 : Real.sqrt l.length * (npStd l / (npStd l + EPS)) ≤ 800000 * 1 :=
    mul_le_mul hsq hb (by positivity) (by norm_num)
  calc |x - npMean l| * (EPS / (npStd l + EPS))
      ≤ (Real.sqrt l.length * npStd l) * (EPS / (npStd l + EPS)) :=
        mul_le_mul_of_nonneg_right h1 (by positivity)
    _ = (Real.sqrt l.length * (npStd l / (npStd l + EPS))) * EPS := by
        field_simp
    _ ≤ (800000 * 1) * EPS := mul_le_mul_of_nonneg_right h2 (le_of_lt hεpos)
    _ = 4 / 5 := by norm_num [EPS]

theorem norm_dev_eq (x μ σ : ℝ) (hσ : 0 ≤ σ) :
    |(x - μ) * (σ / (σ + EPS)) + μ - x| = |x - μ| * (EPS / (σ + EPS)) := by
  have hεpos : (0 : ℝ) < EPS := by norm_num [EPS]
  have hden : σ + EPS ≠ 0 := by positivity
  rw [show (x - μ) * (σ / (σ + EPS)) + μ - x
      = -((x - μ) * (EPS / (σ + EPS))) by field_simp; ring]
  rw [abs_neg, abs_mul]
  congr 1
  exact abs_of_nonneg (by positivity)

theorem roundtrip_close (P : PxR) (hr : ∀ c, 0 ≤ P c ∧ P c ≤ 255) (c : Fin 3) :
    |yuv_to_rgb (rgb_to_yuv P) c - P c| ≤ 3 / 20 := by
  have h0 := hr 0
  have h1 := hr 1
  have h2 := hr 2
  fin_cases c
  · show |yuv_to_rgb (rgb_to_yuv P) 0 - P 0| ≤ 3 / 20
    rw [yuv_to_rgb_zero, rgb_to_yuv_zero, rgb_to_yuv_one, rgb_to_yuv_two,
      abs_le]
    constructor <;> nlinarith [h0.1, h0.2, h1.1, h1.2, h2.1, h2.2]
  · show |yuv_to_rgb (rgb_to_yuv P) 1 - P 1| ≤ 3 / 20
    rw [yuv_to_rgb_one, rgb_to_yuv_zero, rgb_to_yuv_one, rgb_to_yuv_two,
      abs_le]
    constructor <;> nlinarith [h0.1, h0.2, h1.1, h1.2, h2.1, h2.2]
  · show |yuv_to_rgb (rgb_to_yuv P) 2 - P 2| ≤ 3 / 20
    rw [yuv_to_rgb_two, rgb_to_yuv_zero, rgb_to_yuv_one, rgb_to_yuv_two,
      abs_le]
    constructor <;> nlinarith [h0.1, h0.2, h1.1, h1.2, h2.1, h2.2]

theorem yuv_to_rgb_shift (q : PxR) (d : ℝ) (c : Fin 3) :
    yuv_to_rgb (fun c2 => if c2 = 0 then q 0 + d else q c2) c
      = yuv_to_rgb q c + d := by
  fin_cases c
  · show yuv_to_rgb (fun c2 => if c2 = 0 then q 0 + d else q c2) 0
        = yuv_to_rgb q 0 + d
    rw [yuv_to_rgb_zero, yuv_to_rgb_zero]
    simp only [if_pos (rfl : (0 : Fin 3) = 0),
      if_neg (by decide : ¬(1 : Fin 3) = 0),
      if_neg (by decide : ¬(2 : Fin 3) = 0), ite_true, if_true]
    ring
  · show yuv_to_rgb (fun c2 => if c2 = 0 then q 0 + d else q c2) 1
        = yuv_to_rgb q 1 + d
    rw [yuv_to_rgb_one, yuv_to_rgb_one]
    simp only [if_pos (rfl : (0 : Fin 3) = 0),
      if_neg (by decide : ¬(1 : Fin 3) = 0),
      if_neg (by decide : ¬(2 : Fin 3) = 0), ite_true, if_true]
    ring
  · show yuv_to_rgb (fun c2 => if c2 = 0 then q 0 + d else q c2) 2
        = yuv_to_rgb q 2 + d
    rw [yuv_to_rgb_two, yuv_to_rgb_two]
    simp only [if_pos (rfl : (0 : Fin 3) = 0),
      if_neg (by decide : ¬(1 : Fin 3) = 0),
      if_neg (by decide : ¬(2 : Fin 3) = 0), ite_true, if_true]
    ring

/-! ## Claim C6 -/

theorem hugeTile2_chan (c : Fin 3) : chanR (to_np_rgb hugeTile2) c
    = (255 : ℝ) :: List.replicate (9 * 10 ^ 12) 0 := by
  rw [hugeTile2, to_np_rgb, chanR]
  simp only [List.map_cons, List.map_replicate]
  norm_num [gray]

theorem hugeTile2_mu (c : Fin 3) : npMean (chanR (to_np_rgb hugeTile2) c)
    = 255 / ((9 * 10 ^ 12 : ℝ) + 1) := by
  rw [hugeTile2_chan, npMean_outlier_head]
  norm_num

theorem hugeTile2_sd (c : Fin 3) : npStd (chanR (to_np_rgb hugeTile2) c)
    = 765000000 / ((9 * 10 ^ 12 : ℝ) + 1) := by
  rw [npStd, hugeTile2_chan c, npVar_outlier_head]
  rw [show (255 : ℝ) ^ 2 * ((9 * 10 ^ 12 : ℕ) : ℝ)
        / (((9 * 10 ^ 12 : ℕ) : ℝ) + 1) ^ 2
      = (765000000 / ((9 * 10 ^ 12 : ℝ) + 1)) ^ 2 by push_cast; ring_nf]
  exact Real.sqrt_sq (by positivity)

theorem hugeTile2_cons :
    hugeTile2 = gray 255 :: List.replicate 9000000000000 (gray 0) := by
  rw [hugeTile2, show (9 * 10 ^ 12 : ℕ) = 9000000000000 by norm_num]

/-- Claim C6, counterexample.  The claim quantifies over every pixel
buffer; on a large enough one the `"meanstd"` self-transfer moves a
pixel by more than one gray level.  On `hugeTile2` — a valid buffer of
one `(255,255,255)` pixel followed by `9 * 10^12` black pixels — the
per-channel standard deviation is `765000000 / (9*10^12 + 1) ≈ 8.5e-5`,
the gain `sd / (sd + EPS) ≈ 0.988`, and the white pixel's channels land
at `⌊252.03...⌋ = 252`: a change of 3 levels, beyond any rounding of
the final output values. -/
theorem C6_counterexample :
    (∀ p ∈ hugeTile2, ∀ c, 0 ≤ p c ∧ p c ≤ 255) ∧
    ((color_match_pixels hugeTile2 hugeTile2 "meanstd").headD (gray 0)) 0
        = 252 ∧
    (hugeTile2.headD (gray 0)) 0 = 255 ∧
    ¬ |(252 : ℤ) - 255| ≤ 1 := by
  refine ⟨?_, ?_, rfl, by decide⟩
  · intro p hp c
    rcases List.mem_cons.mp hp with h | h
    · rw [h]
      constructor <;> norm_num [gray]
    · rw [List.eq_of_mem_replicate h]
      constructor <;> norm_num [gray]
  · rw [color_match_meanstd_eq]
    rw [show (to_np_rgb hugeTile2).map
        (fun p c => (p c - npMean (chanR (to_np_rgb hugeTile2) c))
          * (npStd (chanR (to_np_rgb hugeTile2) c)
            / (npStd (chanR (to_np_rgb hugeTile2) c) + EPS))
          + npMean (chanR (to_np_rgb hugeTile2) c))
      = (to_np_rgb hugeTile2).map
        (fun p c => (p c - 255 / ((9 * 10 ^ 12 : ℝ) + 1))
          * ((765000000 / ((9 * 10 ^ 12 : ℝ) + 1))
            / ((765000000 / ((9 * 10 ^ 12 : ℝ) + 1)) + EPS))
          + 255 / ((9 * 10 ^ 12 : ℝ) + 1)) from ?_]
    · rw [hugeTile2_cons, to_np_rgb]
      simp only [List.map_cons, clip_back, List.headD_cons]
      norm_num [gray, clipChan, EPS]
    · refine List.map_congr_left (fun p hp => ?_)
      funext c
      rw [hugeTile2_mu c, hugeTile2_sd c]

/-- Claim C6, amended.  For every pixel buffer `A` with valid channel
values and at most `6.4 * 10^11` pixels, and each of the three modes,
`transfer(A, A, mode)` returns `A` unchanged up to the integer rounding
of the final output values: each output channel differs from the
corresponding input channel by at most 1.  In `"mean"` mode the output
is exactly `A`; in `"meanstd"` and `"luma"` mode the `EPS` stabiliser
perturbs each value by at most `sqrt(n) * EPS ≤ 0.8` (via
`|x - mean| ≤ sqrt(n) * std`), and for `"luma"` the inexact YUV
round-trip matrices add at most `0.15` more — together still under one
truncation level.  The size bound is needed: on vastly larger buffers
the stabiliser's perturbation exceeds a whole level (see the
counterexample, at `9 * 10^12 + 1` pixels). -/
theorem C6_transfer_idempotent (A : List Px) (mode : String)
    (hmode : mode = "mean" ∨ mode = "meanstd" ∨ mode = "luma")
    (hrange : ∀ p ∈ A, ∀ c, 0 ≤ p c ∧ p c ≤ 255)
    (hlen : A.length ≤ 640000000000) :
    List.Forall₂ (fun q p => ∀ c, |q c - p c| ≤ 1)
      (color_match_pixels A A mode) A := by
  rcases hmode with hm | hm | hm <;> subst hm
  · rw [color_match_mean_eq, clip_map]
    apply forall2_of_pointwise
    intro p hp c
    have hr := hrange p hp c
    rw [sub_self, add_zero, clipChan_intCast (p c) hr.1 hr.2]
    simp
  · rw [color_match_meanstd_eq, clip_map]
    apply forall2_of_pointwise
    intro p hp c
    have hr := hrange p hp c
    have hx : ((p c : ℤ) : ℝ) ∈ chanR (to_np_rgb A) c := by
      rw [chanR_to_np]
      exact List.mem_map_of_mem _ hp
    have hσ := npStd_nonneg (chanR (to_np_rgb A) c)
    have hll : (chanR (to_np_rgb A) c).length ≤ 640000000000 := by
      rw [chanR_to_np, List.length_map]
      exact hlen
    apply clipChan_near (p c) _ hr.1 hr.2
    rw [norm_dev_eq ((p c : ℤ) : ℝ) (npMean (chanR (to_np_rgb A) c))
      (npStd (chanR (to_np_rgb A) c)) hσ]
    exact lt_of_le_of_lt (dev_scaled_le _ _ hx hll) (by norm_num)
  · rw [color_match_luma_eq, lumaStage, List.map_map, clip_map_map]
    apply forall2_of_pointwise
    intro p hp c
    simp only [Function.comp_apply]
    have hr := hrange p hp
    have hrc := hr c
    have hP : (fun c2 => ((p c2 : ℤ) : ℝ)) ∈ to_np_rgb A :=
      List.mem_map_of_mem _ hp
    have hq0 : rgb_to_yuv (fun c2 => ((p c2 : ℤ) : ℝ)) 0
        ∈ chanR ((to_np_rgb A).map rgb_to_yuv) 0 := by
      rw [chanR_map_px]
      exact List.mem_map_of_mem _ hP
    have hyll : (chanR ((to_np_rgb A).map rgb_to_yuv) 0).length
        ≤ 640000000000 := by
      rw [chanR_map_px, List.length_map, to_np_rgb, List.length_map]
      exact hlen
    have hσ := npStd_nonneg (chanR ((to_np_rgb A).map rgb_to_yuv) 0)
    set q : PxR := rgb_to_yuv (fun c2 => ((p c2 : ℤ) : ℝ)) with hqdef
    set d : ℝ := q 0 * lumaGain (to_np_rgb A) (to_np_rgb A)
      + lumaBias (to_np_rgb A) (to_np_rgb A) - q 0 with hddef
    have hmodif : (fun c2 => if c2 = 0
          then q 0 * lumaGain (to_np_rgb A) (to_np_rgb A)
            + lumaBias (to_np_rgb A) (to_np_rgb A)
          else q c2)
        = (fun c2 => if c2 = 0 then q 0 + d else q c2) := by
      funext c2
      by_cases h2 : c2 = 0
      · rw [if_pos h2, if_pos h2, hddef]
        ring
      · rw [if_neg h2, if_neg h2]
    have hbias : lumaBias (to_np_rgb A) (to_np_rgb A)
        = npMean (chanR ((to_np_rgb A).map rgb_to_yuv) 0)
          - npMean (chanR ((to_np_rgb A).map rgb_to_yuv) 0)
            * lumaGain (to_np_rgb A) (to_np_rgb A) := rfl
    have hd : |d| ≤ 4 / 5 := by
      by_cases hbig : npStd (chanR ((to_np_rgb A).map rgb_to_yuv) 0) > EPS
      · have hγ : lumaGain (to_np_rgb A) (to_np_rgb A)
            = npStd (chanR ((to_np_rgb A).map rgb_to_yuv) 0)
              / (npStd (chanR ((to_np_rgb A).map rgb_to_yuv) 0) + EPS) := by
          rw [lumaGain]
          simp only [if_pos hbig]
        have hshape : d = (q 0 - npMean (chanR ((to_np_rgb A).map rgb_to_yuv) 0))
              * (npStd (chanR ((to_np_rgb A).map rgb_to_yuv) 0)
                / (npStd (chanR ((to_np_rgb A).map rgb_to_yuv) 0) + EPS))
            + npMean (chanR ((to_np_rgb A).map rgb_to_yuv) 0) - q 0 := by
          rw [hddef, hbias, hγ]
          ring
        rw [hshape, norm_dev_eq (q 0) (npMean (chanR ((to_np_rgb A).map rgb_to_yuv) 0))
          (npStd (chanR ((to_np_rgb A).map rgb_to_yuv) 0)) hσ]
        exact dev_scaled_le _ _ hq0 hyll
      · have hγ : lumaGain (to_np_rgb A) (to_np_rgb A) = 1 := by
          rw [lumaGain]
          simp only [if_neg hbig]
        rw [hddef, hbias, hγ]
        simp
        norm_num
    have hstep : yuv_to_rgb (fun c2 => if c2 = 0
          then q 0 * lumaGain (to_np_rgb A) (to_np_rgb A)
            + lumaBias (to_np_rgb A) (to_np_rgb A)
          else q c2) c = yuv_to_rgb q c + d := by
      rw [hmodif, yuv_to_rgb_shift]
    rw [hstep]
    apply clipChan_near (p c) _ hrc.1 hrc.2
    have htrip : |yuv_to_rgb q c - ((p c : ℤ) : ℝ)| ≤ 3 / 20 := by
      rw [hqdef]
      refine roundtrip_close _ (fun c2 => ⟨?_, ?_⟩) c
      · exact_mod_cast (hr c2).1
      · exact_mod_cast (hr c2).2
    calc |yuv_to_rgb q c + d - ((p c : ℤ) : ℝ)|
        = |(yuv_to_rgb q c - ((p c : ℤ) : ℝ)) + d| := by ring_nf
      _ ≤ |yuv_to_rgb q c - ((p c : ℤ) : ℝ)| + |d| := abs_add _ _
      _ < 1 := by
          have := hd
          linarith

/-- Claim C6, witness at a concrete call in each mode. -/
theorem C6_transfer_idempotent_witness :
    List.Forall₂ (fun q p => ∀ c, |q c - p c| ≤ 1)
      (color_match_pixels [gray 7, gray 250] [gray 7, gray 250] "meanstd")
      [gray 7, gray 250] :=
  C6_transfer_idempotent [gray 7, gray 250] "meanstd" (Or.inr (Or.inl rfl))
    (by
      intro p hp c
      simp only [List.mem_cons, List.not_mem_nil, or_false] at hp
      rcases hp with h | h <;> rw [h] <;> constructor <;> norm_num [gray])
    (by norm_num)

end Photomosaic
